import Mathlib

/-!
Verification of the whisper_json_to_pdf transcript pipeline.

A shallow embedding of the core of `whisper_json_to_pdf.py`:

* `fmt_time` — timestamp formatting (source lines 42–49);
* `light_cleanup` — the conservative text-normalization chain of Python
  `re.sub` rewrites (source lines 52–107);
* `build_blocks` — the time bucketizer grouping segments into
  `interval_s`-second blocks (source lines 145–185);
* the post-bucketing empty-result check of `main` (source lines 293–296).

Python floats are modelled as exact rationals (`ℚ`); all times appearing in
the program and in the claims are small decimal values on which binary
floating point arithmetic is exact or rounds identically, so the rational
model is faithful for them.  Python strings are modelled as `List Char`
restricted to ASCII (every string in the program and the claims is ASCII;
the Python regexes' `\s`, `\w`, `[A-Za-z]` classes are modelled on their
ASCII fragment).

Each `re.sub` call is modelled by an explicit left-to-right scanner with the
exact semantics of the CPython `re` engine on the pattern in question:
at each position the engine tries to match, alternatives are tried in
order, a successful match emits the replacement and resumes scanning right
after the matched text, and a failed attempt emits one character and
advances by one.  Greedy quantifier backtracking is resolved statically for
each pattern (see the comments on the individual scanners).
-/

/-! ## Character classes (ASCII fragment of the Python `re` classes) -/

/-- Python `\s` / `str.strip` whitespace, ASCII fragment. -/
def isPySpace (c : Char) : Bool :=
  c == ' ' || c == '\t' || c == '\n' || c == '\r' || c == '\x0b' || c == '\x0c'

/-- Python `\w` word character, ASCII fragment: `[A-Za-z0-9_]`. -/
def isWordChar (c : Char) : Bool :=
  c.isAlpha || c.isDigit || c == '_'

/-- The delimiter class `[ ,;:]` of the filler-removal pattern (source line 86). -/
def isDelim (c : Char) : Bool :=
  c == ' ' || c == ',' || c == ';' || c == ':'

/-- The punctuation class `[,.;:!?]` of the spacing rules (source lines 93–99). -/
def isPunct (c : Char) : Bool :=
  c == ',' || c == '.' || c == ';' || c == ':' || c == '!' || c == '?'

/-- The terminal-punctuation class `[.!?]` of the final-period rule (source line 102). -/
def isTermPunct (c : Char) : Bool :=
  c == '.' || c == '!' || c == '?'

/-! ## Elementary string operations -/

/-- Python `str.strip()`: drop leading and trailing whitespace. -/
def pyStrip (l : List Char) : List Char :=
  ((l.dropWhile isPySpace).reverse.dropWhile isPySpace).reverse

/-- Auxiliary scanner for `re.sub(r"\s+", " ", t)`: the flag records whether
the previous character was part of a whitespace run already emitted as a
single space. -/
def collapseWsAux : Bool → List Char → List Char
  | _, [] => []
  | inRun, c :: cs =>
    if isPySpace c then
      if inRun then collapseWsAux true cs else ' ' :: collapseWsAux true cs
    else c :: collapseWsAux false cs

/-- Model of `re.sub(r"\s+", " ", t)` (source lines 82 and 87): every maximal run of
whitespace becomes a single space. -/
def collapseWs (l : List Char) : List Char := collapseWsAux false l

/-! ## Rule 3: filler removal (source lines 52–68 and 84–87)

The pattern is `(?i)(^|[ ,;:])(F₁|…|F₉)([ ,;:]|$)` replaced by `\1\3`, where
the `Fᵢ` are the members of `FILLER_WORDS`: `\bum+\b`, `\buh+\b`, `\ber+\b`,
`\bah+\b`, `\blike\b`, `\byou know\b`, `\bkind of\b`, `\bsort of\b`,
`\bI mean\b`.  In the context of this pattern the `\b` assertions are
subsumed: group 1 always ends at a non-word character or the string start,
and group 3 only accepts a non-word character or the string end, while a
shorter elongated run (`um+` etc.) is always followed by a further run
character, so greedy matching of the run never backtracks successfully.
Alternatives start with pairwise distinct situations, so alternation order
is immaterial.  At position 0 the engine first tries `^` for group 1 and on
failure backtracks to `[ ,;:]`. -/

/-- Match an elongated filler (`um+`, `uh+`, `er+`, `ah+`, case-insensitive):
first letter `c1`, then a maximal nonempty run of `c2`.  Returns the rest of
the input after the match. -/
def matchElong (c1 c2 : Char) : List Char → Option (List Char)
  | a :: b :: rest =>
    if a.toLower == c1 && b.toLower == c2 then
      some (List.dropWhile (fun x => x.toLower == c2) (b :: rest))
    else none
  | _ => none

/-- Match a literal filler word/phrase case-insensitively (`pat` is given in
lowercase).  Returns the rest of the input after the match. -/
def matchLit : List Char → List Char → Option (List Char)
  | [], l => some l
  | _ :: _, [] => none
  | p :: ps, c :: cs => if c.toLower == p then matchLit ps cs else none

/-- Try the nine `FILLER_WORDS` alternatives in order at the current
position. -/
def matchFillerWord (l : List Char) : Option (List Char) :=
  (matchElong 'u' 'm' l).orElse fun _ =>
  (matchElong 'u' 'h' l).orElse fun _ =>
  (matchElong 'e' 'r' l).orElse fun _ =>
  (matchElong 'a' 'h' l).orElse fun _ =>
  (matchLit "like".toList l).orElse fun _ =>
  (matchLit "you know".toList l).orElse fun _ =>
  (matchLit "kind of".toList l).orElse fun _ =>
  (matchLit "sort of".toList l).orElse fun _ =>
  matchLit "i mean".toList l

/-- Group 3 of the filler pattern, `([ ,;:]|$)`: a delimiter character, or
the empty match at the end of the string.  Returns the text of group 3 and
the rest of the input. -/
def matchTail : List Char → Option (List Char × List Char)
  | [] => some ([], [])
  | c :: cs => if isDelim c then some ([c], cs) else none

/-- Attempt a full match of the filler pattern at the current position.
`atStart` records whether the position is the start of the string (where
group 1 may match `^`; on failure the engine backtracks to the `[ ,;:]`
alternative).  Returns the replacement `\1\3` and the rest of the input
after the match. -/
def matchFillerAt (atStart : Bool) (l : List Char) : Option (List Char × List Char) :=
  let viaCaret : Option (List Char × List Char) :=
    if atStart then
      match matchFillerWord l with
      | some rest1 =>
        match matchTail rest1 with
        | some (g3, rest) => some (g3, rest)
        | none => none
      | none => none
    else none
  match viaCaret with
  | some r => some r
  | none =>
    match l with
    | d :: l1 =>
      if isDelim d then
        match matchFillerWord l1 with
        | some rest1 =>
          match matchTail rest1 with
          | some (g3, rest) => some (d :: g3, rest)
          | none => none
        | none => none
      else none
    | [] => none

/-- The `re.sub` scan for the filler pattern, with fuel (the fuel is the
length of the remaining input, which strictly decreases at every step). -/
def fillerScan : Nat → Bool → List Char → List Char
  | _, _, [] => []
  | 0, _, l => l
  | fuel + 1, atStart, c :: cs =>
    match matchFillerAt atStart (c :: cs) with
    | some (repl, rest) => repl ++ fillerScan fuel false rest
    | none => c :: fillerScan fuel false cs

/-- Source line 86: `re.sub(r"(?i)(^|[ ,;:])(FILLERS)([ ,;:]|$)", r"\1\3", t)`. -/
def removeFillers (l : List Char) : List Char := fillerScan l.length true l

/-! ## Rule 5: de-stutter (source line 90)

The pattern is `(?i)\b(\w+)\s+\1\b` replaced by `\1`.  Greedy `(\w+)` must
take the whole word run (a shorter prefix leaves a word character where
`\s+` is required), and greedy `\s+` must take the whole whitespace run (a
shorter run leaves a whitespace character where the backreference's word
character is required), so the backtracking is again resolved statically.
The backreference is case-insensitive under `(?i)`; the replacement is the
text of group 1 (the first word, original case). -/

/-- Match the backreference `\1` case-insensitively against the input.
Returns the rest of the input after the match. -/
def matchCI : List Char → List Char → Option (List Char)
  | [], l => some l
  | _ :: _, [] => none
  | w :: ws, c :: cs => if c.toLower == w.toLower then matchCI ws cs else none

/-- Word boundary after the backreference: the backreference ends in a word
character, so `\b` holds exactly when the rest is empty or starts with a
non-word character. -/
def boundaryAfter : List Char → Bool
  | [] => true
  | d :: _ => !isWordChar d

/-- The `re.sub` scan for the de-stutter pattern.  The flag records whether
the previous character of the input (as re-read by the engine when it
resumes after a match or an advance) is a word character, which decides the
leading `\b`. -/
def destutterScan : Nat → Bool → List Char → List Char
  | _, _, [] => []
  | 0, _, l => l
  | fuel + 1, prevWord, c :: cs =>
    if isWordChar c && !prevWord then
      let w := List.takeWhile isWordChar (c :: cs)
      let rest1 := List.dropWhile isWordChar (c :: cs)
      let sp := rest1.takeWhile isPySpace
      let rest2 := rest1.dropWhile isPySpace
      if sp.isEmpty then c :: destutterScan fuel true cs
      else
        match matchCI w rest2 with
        | some rest3 =>
          if boundaryAfter rest3 then w ++ destutterScan fuel true rest3
          else c :: destutterScan fuel true cs
        | none => c :: destutterScan fuel true cs
    else c :: destutterScan fuel (isWordChar c) cs

/-- Source line 90: `re.sub(r"(?i)\b(\w+)\s+\1\b", r"\1", t)`. -/
def destutter (l : List Char) : List Char := destutterScan l.length false l

/-! ## Rules 6–8: punctuation spacing (source lines 93–99) -/

/-- The `re.sub` scan for `r"\s+([,.;:!?])" → r"\1"`: a maximal whitespace
run immediately followed by a punctuation mark is replaced by the mark. -/
def stripSpaceBeforePunctScan : Nat → List Char → List Char
  | _, [] => []
  | 0, l => l
  | fuel + 1, c :: cs =>
    if isPySpace c then
      match List.dropWhile isPySpace (c :: cs) with
      | p :: rest2 =>
        if isPunct p then p :: stripSpaceBeforePunctScan fuel rest2
        else c :: stripSpaceBeforePunctScan fuel cs
      | [] => c :: stripSpaceBeforePunctScan fuel cs
    else c :: stripSpaceBeforePunctScan fuel cs

/-- Source line 93: `re.sub(r"\s+([,.;:!?])", r"\1", t)`. -/
def stripSpaceBeforePunct (l : List Char) : List Char :=
  stripSpaceBeforePunctScan l.length l

/-- The `re.sub` scan for `r"([,.;:!?])([A-Za-z])" → r"\1 \2"`: insert a
space between a punctuation mark and an immediately following letter; the
match consumes both characters. -/
def spaceAfterPunctScan : Nat → List Char → List Char
  | _, [] => []
  | 0, l => l
  | fuel + 1, c :: cs =>
    if isPunct c then
      match cs with
      | d :: rest =>
        if d.isAlpha then c :: ' ' :: d :: spaceAfterPunctScan fuel rest
        else c :: spaceAfterPunctScan fuel cs
      | [] => c :: spaceAfterPunctScan fuel cs
    else c :: spaceAfterPunctScan fuel cs

/-- Source line 96: `re.sub(r"([,.;:!?])([A-Za-z])", r"\1 \2", t)`. -/
def spaceAfterPunct (l : List Char) : List Char :=
  spaceAfterPunctScan l.length l

/-- The `re.sub` scan for `r"([,.;:!?])\1+" → r"\1"`: a run of two or more
identical punctuation marks collapses to one.  Emitting the mark and
skipping the following run of copies is also correct when the run is empty
(then no match starts here and the engine just advances). -/
def collapsePunctScan : Nat → List Char → List Char
  | _, [] => []
  | 0, l => l
  | fuel + 1, c :: cs =>
    if isPunct c then c :: collapsePunctScan fuel (List.dropWhile (fun x => x == c) cs)
    else c :: collapsePunctScan fuel cs

/-- Source line 99: `re.sub(r"([,.;:!?])\1+", r"\1", t)`. -/
def collapsePunct (l : List Char) : List Char := collapsePunctScan l.length l

/-! ## Rule 9: terminal period (source lines 101–106) -/

/-- Model of `re.search(r"[.!?]\s*$", t)`: try every start position; the pattern
matches at a position iff the character there is terminal punctuation and
everything after it is whitespace. -/
def searchTermPunct : List Char → Bool
  | [] => false
  | c :: cs => (isTermPunct c && cs.all isPySpace) || searchTermPunct cs

/-- The spec's phrasing of the terminal-punctuation test: the string ends in
`.`, `!` or `?` optionally followed by whitespace, i.e. its last
non-whitespace character is terminal punctuation.
`searchTermPunct_eq_endsWithTerminal` below proves it equal to the code's
positional search. -/
def endsWithTerminal (t : List Char) : Bool :=
  match t.reverse.dropWhile isPySpace with
  | [] => false
  | c :: _ => isTermPunct c

/-! ## The cleanup chain (source lines 70–107) -/

/-- The cleanup chain of `light_cleanup` up to and including the
double-punctuation collapse, i.e. everything before the terminal-period
heuristic (source lines 79–99). -/
def cleanupBeforePeriod (text : List Char) : List Char :=
  let t := pyStrip text
  let t := collapseWs t
  let t := removeFillers t
  let t := pyStrip (collapseWs t)
  let t := destutter t
  let t := stripSpaceBeforePunct t
  let t := spaceAfterPunct t
  collapsePunct t

/-- The function `light_cleanup` (source lines 70–107): the full conservative cleanup
chain, ending with the terminal-period heuristic of lines 101–106. -/
def light_cleanup (text : List Char) : List Char :=
  let t := cleanupBeforePeriod text
  if !t.isEmpty && !searchTermPunct t && decide (40 < t.length) then t ++ ['.']
  else t

/-- Python `sep.join(texts)` (source line 180 uses `" ".join(texts)`). -/
def joinSep (sep : List Char) : List (List Char) → List Char
  | [] => []
  | [x] => x
  | x :: y :: rest => x ++ sep ++ joinSep sep (y :: rest)

/-! ## Data model (source lines 114–125)

`Segment.end` and `Block.end` are rendered as `end_` (`end` is a Lean
keyword). -/

/-- A Whisper transcript segment (source lines 114–118). -/
structure Segment where
  start : ℚ
  end_ : ℚ
  text : List Char
deriving DecidableEq, Repr

/-- An output block / bucket (source lines 121–125). -/
structure Block where
  start : ℚ
  end_ : ℚ
  text : List Char
deriving DecidableEq, Repr

/-! ## Exact rational floor/ceiling division

`build_blocks` computes `math.floor(t_start / interval_s)` and
`math.ceil((t_end - bin0) / interval_s)`.  To keep the model executable by
kernel reduction, both are computed on the numerator/denominator
representation with integer euclidean division; the lemmas
`floorDivQ_eq` and `ceilSubDivQ_eq` below prove that for a positive
interval these definitions agree with the mathematical `⌊x / k⌋` and
`⌈(x - z) / k⌉` that the Python source computes. -/

/-- Computes `math.floor(x / k)` for an integer `k > 0`, exactly. -/
def floorDivQ (x : ℚ) (k : ℤ) : ℤ := x.num / ((x.den : ℤ) * k)

/-- Computes `math.ceil((x - z) / k)` for integers `z` and `k > 0`, exactly
via `⌈q⌉ = -⌊-q⌋`. -/
def ceilSubDivQ (x : ℚ) (z k : ℤ) : ℤ := -((z * (x.den : ℤ) - x.num) / ((x.den : ℤ) * k))

/-! ## The bucketizer (source lines 145–185) -/

/-- The anchor `bin0 = math.floor(t_start / interval_s) * interval_s` (source line 158),
where `t_start = segments[0].start` (source line 154); `0` for an empty
segment list (unreachable in the source: line 151 returns first). -/
def binAnchor (segments : List Segment) (interval_s : ℤ) : ℤ :=
  match segments with
  | [] => 0
  | s0 :: _ => floorDivQ s0.start interval_s * interval_s

/-- The value `t_end = max(s.end for s in segments)` (source line 155); `0` for an
empty segment list (unreachable in the source). -/
def tEnd (segments : List Segment) : ℚ :=
  match segments with
  | [] => 0
  | s0 :: rest => (rest.map Segment.end_).foldl max s0.end_

/-- The bin count `nbins = int(math.ceil((t_end - bin0) / interval_s))` (source line 159). -/
def nbins (segments : List Segment) (interval_s : ℤ) : ℤ :=
  ceilSubDivQ (tEnd segments) (binAnchor segments interval_s) interval_s

/-- The value `b_start = bin0 + i * interval_s` (source line 165), the start of
conceptual bin `i`. -/
def binStart (bin0 interval_s : ℤ) (i : ℕ) : ℤ := bin0 + (i : ℤ) * interval_s

/-- The skip loop of source lines 170–171: advance the cursor past the
leading segments with `segment.end <= b_start`. -/
def skipForBin (interval_s bin0 : ℤ) (i : ℕ) (segs : List Segment) : List Segment :=
  segs.dropWhile fun s => decide (s.end_ ≤ ((binStart bin0 interval_s i : ℤ) : ℚ))

/-- The collection loop of source lines 173–177 followed by lines 179–183:
from the cursor, take segments while `segment.start < b_end`, keep the
nonempty texts, and emit a block when the joined, cleaned text is nonempty.
`segs` is the suffix of the segment list from the (already advanced)
cursor, and `i` the bin index. -/
def emitAt (interval_s bin0 : ℤ) (segs : List Segment) (i : ℕ) : Option Block :=
  let b_start := binStart bin0 interval_s i
  let b_end := b_start + interval_s
  let included := segs.takeWhile fun s => decide (s.start < ((b_end : ℤ) : ℚ))
  let texts := included.filterMap fun s => if s.text.isEmpty then none else some s.text
  if texts.isEmpty then none
  else
    let raw := joinSep [' '] texts
    let cleaned := light_cleanup raw
    if cleaned.isEmpty then none
    else some ⟨((b_start : ℤ) : ℚ), ((b_end : ℤ) : ℚ), cleaned⟩

/-- The `for i in range(nbins)` loop of source lines 164–183: process bin
`i` (skip, collect, emit) with the current cursor suffix `segs`, then
continue with bin `i + 1` from the advanced cursor.  The fuel is the number
of bins left to process. -/
def buildLoop (interval_s bin0 : ℤ) : List Segment → ℕ → ℕ → List Block
  | _, _, 0 => []
  | segs, i, fuel + 1 =>
    let rem := skipForBin interval_s bin0 i segs
    let rest := buildLoop interval_s bin0 rem (i + 1) fuel
    match emitAt interval_s bin0 rem i with
    | none => rest
    | some b => b :: rest

/-- The bucketizer `build_blocks` (source lines 145–185). -/
def build_blocks (segments : List Segment) (interval_s : ℤ) : List Block :=
  match segments with
  | [] => []
  | _ :: _ =>
    buildLoop interval_s (binAnchor segments interval_s) segments 0
      (nbins segments interval_s).toNat

/-! ## Declarative view of the forward scan

`activeSegs segments k i` is the cursor suffix used by bin `i` after its
skip loop; `binIncluded`, `binTexts` and `binRaw` are the included
segments, collected texts and raw joined text of bin `i`; `emitBin` is the
emission decision for bin `i`.  `build_blocks_eq_emitBin` below proves that
`build_blocks` is exactly the bins of `List.range nbins` emitted through
these projections. -/

/-- Iterated skip: the cursor suffix after the skip loops of bins
`i, i+1, …, i+j`, starting from the suffix `segs` at bin `i`. -/
def activeFrom (interval_s bin0 : ℤ) (segs : List Segment) (i : ℕ) : ℕ → List Segment
  | 0 => skipForBin interval_s bin0 i segs
  | j + 1 => skipForBin interval_s bin0 (i + j + 1) (activeFrom interval_s bin0 segs i j)

/-- The cursor suffix seen by bin `i` of `build_blocks segments k`, after
bin `i`'s own skip loop. -/
def activeSegs (segments : List Segment) (k : ℤ) (i : ℕ) : List Segment :=
  activeFrom k (binAnchor segments k) segments 0 i

/-- The segments included in bin `i` by the collection loop. -/
def binIncluded (segments : List Segment) (k : ℤ) (i : ℕ) : List Segment :=
  (activeSegs segments k i).takeWhile fun s =>
    decide (s.start < ((binStart (binAnchor segments k) k i + k : ℤ) : ℚ))

/-- The nonempty texts collected for bin `i`. -/
def binTexts (segments : List Segment) (k : ℤ) (i : ℕ) : List (List Char) :=
  (binIncluded segments k i).filterMap fun s =>
    if s.text.isEmpty then none else some s.text

/-- The raw concatenated text of bin `i` (`" ".join(texts)`, source line 180). -/
def binRaw (segments : List Segment) (k : ℤ) (i : ℕ) : List Char :=
  joinSep [' '] (binTexts segments k i)

/-- The emission decision of bin `i` of `build_blocks segments k`. -/
def emitBin (segments : List Segment) (k : ℤ) (i : ℕ) : Option Block :=
  emitAt k (binAnchor segments k) (activeSegs segments k i) i

/-! ## The empty-result check of `main` (source lines 293–296) -/

/-- Outcome of `main` after bucketing: `raise SystemExit("No transcript
text found …")` on an empty block list, otherwise the blocks are rendered. -/
inductive RunOutcome where
  | emptyResult : RunOutcome
  | rendered : List Block → RunOutcome
deriving DecidableEq, Repr

/-- The post-bucketing branch of `main` (source lines 293–296). -/
def runAfterBuild (segments : List Segment) (interval_s : ℤ) : RunOutcome :=
  match build_blocks segments interval_s with
  | [] => RunOutcome.emptyResult
  | b :: bs => RunOutcome.rendered (b :: bs)

/-! ## Timestamp formatting (source lines 42–49) -/

/-- Decimal digits of a natural number, most significant first, by fuel
recursion (`fuel ≥ 1` suffices for `n < 10^fuel`). -/
def natDigitsAux : Nat → Nat → List Char
  | 0, _ => []
  | fuel + 1, n =>
    if n < 10 then [Nat.digitChar n] else natDigitsAux fuel (n / 10) ++ [Nat.digitChar (n % 10)]

/-- Decimal digits of a natural number. -/
def natDigits (n : ℕ) : List Char := natDigitsAux (n + 1) n

/-- Python `f"{n:02d}"`: decimal representation left-padded with zeros to
width 2 (the sign counts toward the width). -/
def pad2 (n : ℤ) : List Char :=
  if 0 ≤ n then
    if n < 10 then '0' :: natDigits n.toNat else natDigits n.toNat
  else '-' :: natDigits n.natAbs

/-- The formatter `fmt_time` (source lines 42–49).  `s = int(seconds + 0.5)` truncates
`seconds + 1/2` toward zero, computed here on the exact fraction
`(2·num + den) / (2·den)`; `//` and `%` are Python floor division and
modulo (`Int.fdiv` / `Int.fmod`). -/
def fmt_time (seconds : ℚ) : String :=
  let s : ℤ := Int.tdiv (2 * seconds.num + (seconds.den : ℤ)) (2 * (seconds.den : ℤ))
  let h := Int.fdiv s 3600
  let m := Int.fdiv (Int.fmod s 3600) 60
  let sec := Int.fmod s 60
  if h > 0 then String.mk (pad2 h ++ ':' :: pad2 m ++ ':' :: pad2 sec)
  else String.mk (pad2 m ++ ':' :: pad2 sec)

/-! ## Fixtures and spec-side definitions used by the claims -/

/-- The claim's description of the timestamp format for a whole number of
seconds: zero-padded `MM:SS` when the hour component is zero, `HH:MM:SS`
otherwise. -/
def clockFormat (n : ℕ) : String :=
  if n / 3600 = 0 then
    String.mk (pad2 ((n / 60 : ℕ) : ℤ) ++ ':' :: pad2 ((n % 60 : ℕ) : ℤ))
  else
    String.mk (pad2 ((n / 3600 : ℕ) : ℤ) ++ ':' :: pad2 ((n / 60 % 60 : ℕ) : ℤ) ++
      ':' :: pad2 ((n % 60 : ℕ) : ℤ))

/-- The spec's end-to-end fixture: two segments, `[0, 5)` "um so today" and
`[5, 33)` "we we talk about caches". -/
def exSegs : List Segment :=
  [⟨0, 5, "um so today".toList⟩, ⟨5, 33, "we we talk about caches".toList⟩]

/-- The delimiter characters of the filler pattern's `[ ,;:]` class, as a
list. -/
def delimChars : List Char := [' ', ',', ';', ':']

/-- Inputs on which the cleanup chain is a fixed point after one
application: the spec's fixtures and representative strings for each rule. -/
def idempotenceFixtures : List (List Char) :=
  ["um so today we we talk about caches".toList,
   "we we talk about caches".toList,
   "so, um, yes".toList,
   "so, um; yes".toList,
   "unlike this".toList,
   "I like pizza".toList,
   "this lecture covers caches and virtual memory today".toList,
   "Hello there.".toList,
   "a , .b".toList,
   "".toList]

/-- A segment list as `load_whisper_json` can produce it: `end` defaulted
to `0.0` while `start` is positive (source lines 136–141). -/
def defaultedEndSegs : List Segment := [⟨35, 0, "hello".toList⟩]

/-! ## Bridge lemmas: the executable divisions compute floor and ceiling -/

/-- For a positive interval, `floorDivQ` is `math.floor(x / k)`. -/
theorem floorDivQ_eq (x : ℚ) (k : ℤ) (hk : 0 < k) :
    floorDivQ x k = ⌊x / (k : ℚ)⌋ := by
  lift k to ℕ using hk.le with K
  have hdQ : (x.den : ℚ) ≠ 0 := by exact_mod_cast x.den_nz
  have h1 : x / ((K : ℤ) : ℚ) = ((x.num : ℤ) : ℚ) / ((x.den * K : ℕ) : ℚ) := by
    conv_lhs => rw [← Rat.num_div_den x]
    rw [div_div]
    push_cast
    ring_nf
  rw [h1, Rat.floor_intCast_div_natCast]
  unfold floorDivQ
  norm_cast

/-- For a positive interval, `ceilSubDivQ` is `math.ceil((x - z) / k)`. -/
theorem ceilSubDivQ_eq (x : ℚ) (z k : ℤ) (hk : 0 < k) :
    ceilSubDivQ x z k = ⌈(x - (z : ℚ)) / (k : ℚ)⌉ := by
  lift k to ℕ using hk.le with K
  have hK : (0 : ℚ) < (K : ℚ) := by exact_mod_cast hk
  have hdQ : (x.den : ℚ) ≠ 0 := by exact_mod_cast x.den_nz
  have hKne : (K : ℚ) ≠ 0 := ne_of_gt hK
  have h1 : -((x - (z : ℚ)) / ((K : ℤ) : ℚ)) =
      ((z * (x.den : ℤ) - x.num : ℤ) : ℚ) / ((x.den * K : ℕ) : ℚ) := by
    conv_lhs => rw [← Rat.num_div_den x]
    push_cast
    field_simp
    ring
  have h2 : ⌈(x - (z : ℚ)) / ((K : ℤ) : ℚ)⌉ = -⌊-((x - (z : ℚ)) / ((K : ℤ) : ℚ))⌋ := by
    rw [Int.floor_neg, neg_neg]
  rw [h2, h1, Rat.floor_intCast_div_natCast]
  unfold ceilSubDivQ
  norm_cast

/-- The rounding step `s = int(seconds + 0.5)` of `fmt_time` computes
`⌊seconds + 1/2⌋` for nonnegative input. -/
theorem fmt_time_round_eq (x : ℚ) (hx : 0 ≤ x) :
    Int.tdiv (2 * x.num + (x.den : ℤ)) (2 * (x.den : ℤ)) = ⌊x + 1 / 2⌋ := by
  have hnum : 0 ≤ x.num := Rat.num_nonneg.mpr hx
  have hden : (0 : ℤ) < (x.den : ℤ) := by exact_mod_cast x.pos
  have hdQ : (x.den : ℚ) ≠ 0 := by exact_mod_cast x.den_nz
  have h1 : Int.tdiv (2 * x.num + (x.den : ℤ)) (2 * (x.den : ℤ)) =
      (2 * x.num + (x.den : ℤ)) / (2 * (x.den : ℤ)) :=
    Int.tdiv_eq_ediv (by positivity) (by positivity)
  have h2 : x + 1 / 2 = ((2 * x.num + (x.den : ℤ) : ℤ) : ℚ) / ((2 * x.den : ℕ) : ℚ) := by
    conv_lhs => rw [← Rat.num_div_den x]
    push_cast
    field_simp
    ring
  rw [h2, Rat.floor_intCast_div_natCast, h1]
  norm_cast

/-! ## List helper lemmas -/

/-- An element that fails the predicate is kept by `dropWhile`. -/
theorem mem_dropWhile_of_mem {α : Type} {p : α → Bool} {l : List α} {x : α}
    (hx : x ∈ l) (hpx : ¬ p x) : x ∈ l.dropWhile p := by
  rw [← List.takeWhile_append_dropWhile (p := p) (l := l)] at hx
  rcases List.mem_append.mp hx with h | h
  · exact absurd (List.mem_takeWhile_imp h) hpx
  · exact h

/-- An element of a list that is not kept by `dropWhile` satisfies the
predicate. -/
theorem pred_of_not_mem_dropWhile {α : Type} {p : α → Bool} {l : List α} {x : α}
    (hx : x ∈ l) (h : x ∉ l.dropWhile p) : p x := by
  rw [← List.takeWhile_append_dropWhile (p := p) (l := l)] at hx
  rcases List.mem_append.mp hx with h' | h'
  · exact List.mem_takeWhile_imp h'
  · exact absurd h' h

/-- In a list sorted by `start`, an element below the bound is kept by
`takeWhile (start < B)`. -/
theorem mem_takeWhile_start_lt {l : List Segment} {B : ℚ}
    (hsort : List.Pairwise (fun a b : Segment => a.start ≤ b.start) l)
    {s : Segment} (hs : s ∈ l) (hlt : s.start < B) :
    s ∈ l.takeWhile (fun x => decide (x.start < B)) := by
  induction l with
  | nil => cases hs
  | cons a t ih =>
    rcases List.mem_cons.mp hs with rfl | hmem
    · rw [List.takeWhile_cons]
      simp [hlt]
    · have ha : a.start < B :=
        lt_of_le_of_lt ((List.pairwise_cons.mp hsort).1 s hmem) hlt
      rw [List.takeWhile_cons]
      simp only [ha, decide_True, if_true]
      exact List.mem_cons_of_mem _ (ih (List.pairwise_cons.mp hsort).2 hmem)

/-- The initial value bounds a `foldl max`. -/
theorem init_le_foldl_max (l : List ℚ) (b : ℚ) : b ≤ l.foldl max b := by
  induction l generalizing b with
  | nil => exact le_refl b
  | cons a t ih => exact le_trans (le_max_left b a) (ih (max b a))

/-- Every member bounds a `foldl max`. -/
theorem mem_le_foldl_max {l : List ℚ} {x : ℚ} (hx : x ∈ l) (b : ℚ) :
    x ≤ l.foldl max b := by
  induction l generalizing b with
  | nil => cases hx
  | cons a t ih =>
    rcases List.mem_cons.mp hx with rfl | hmem
    · exact le_trans (le_max_right b x) (init_le_foldl_max t (max b x))
    · exact ih hmem (max b a)

/-- Every segment ends at or before `t_end`. -/
theorem end_le_tEnd {segs : List Segment} {s : Segment} (hs : s ∈ segs) :
    s.end_ ≤ tEnd segs := by
  cases segs with
  | nil => cases hs
  | cons s0 rest =>
    rcases List.mem_cons.mp hs with rfl | hmem
    · exact init_le_foldl_max _ _
    · exact mem_le_foldl_max (List.mem_map_of_mem Segment.end_ hmem) _

/-- Every member of the joined list is a contiguous substring of the join. -/
theorem infix_joinSep (sep : List Char) {L : List (List Char)} {x : List Char}
    (hx : x ∈ L) : x <:+: joinSep sep L := by
  induction L with
  | nil => cases hx
  | cons a t ih =>
    cases t with
    | nil =>
      rcases List.mem_cons.mp hx with rfl | h
      · exact List.infix_rfl
      · cases h
    | cons b t2 =>
      rcases List.mem_cons.mp hx with rfl | hmem
      · exact ⟨[], sep ++ joinSep sep (b :: t2), by simp [joinSep, List.append_assoc]⟩
      · obtain ⟨u, v, huv⟩ := ih hmem
        refine ⟨a ++ sep ++ u, v, ?_⟩
        rw [joinSep, ← huv]
        simp [List.append_assoc]

/-! ## The loop characterization: `build_blocks` bin by bin -/

/-- Shifting the starting state of the iterated skip by one bin. -/
theorem activeFrom_succ (k bin0 : ℤ) (segs : List Segment) (i j : ℕ) :
    activeFrom k bin0 segs i (j + 1) =
      activeFrom k bin0 (skipForBin k bin0 i segs) (i + 1) j := by
  induction j with
  | zero => rfl
  | succ j ih =>
    show skipForBin k bin0 (i + (j + 1) + 1) (activeFrom k bin0 segs i (j + 1)) =
      skipForBin k bin0 (i + 1 + j + 1) (activeFrom k bin0 (skipForBin k bin0 i segs) (i + 1) j)
    rw [show i + (j + 1) + 1 = i + 1 + j + 1 from by omega, ih]

/-- One unfolding of the bin loop. -/
theorem buildLoop_succ (k bin0 : ℤ) (segs : List Segment) (i fuel : ℕ) :
    buildLoop k bin0 segs i (fuel + 1) =
      (match emitAt k bin0 (skipForBin k bin0 i segs) i with
       | none => buildLoop k bin0 (skipForBin k bin0 i segs) (i + 1) fuel
       | some b => b :: buildLoop k bin0 (skipForBin k bin0 i segs) (i + 1) fuel) := rfl

/-- The bin loop is the bins of `List.range fuel`, each emitted from its
iterated-skip cursor state. -/
theorem buildLoop_eq_filterMap (k bin0 : ℤ) (fuel : ℕ) :
    ∀ (segs : List Segment) (i : ℕ),
      buildLoop k bin0 segs i fuel =
        (List.range fuel).filterMap
          (fun j => emitAt k bin0 (activeFrom k bin0 segs i j) (i + j)) := by
  induction fuel with
  | zero => intro segs i; rfl
  | succ fuel ih =>
    intro segs i
    rw [buildLoop_succ, ih (skipForBin k bin0 i segs) (i + 1),
      List.range_succ_eq_map, List.filterMap_cons, List.filterMap_map]
    have htail :
        ((fun j => emitAt k bin0 (activeFrom k bin0 segs i j) (i + j)) ∘ Nat.succ) =
          fun j => emitAt k bin0 (activeFrom k bin0 (skipForBin k bin0 i segs) (i + 1) j)
            (i + 1 + j) := by
      funext j
      show emitAt k bin0 (activeFrom k bin0 segs i (j + 1)) (i + (j + 1)) = _
      rw [activeFrom_succ, show i + (j + 1) = i + 1 + j from by omega]
    rw [htail]
    simp only [activeFrom, Nat.add_zero]
    cases emitAt k bin0 (skipForBin k bin0 i segs) i <;> rfl

/-- The function `build_blocks` is exactly the emission of the conceptual bins
`0, …, nbins - 1`, each from its forward-scan cursor state. -/
theorem build_blocks_eq_emitBin (segs : List Segment) (k : ℤ) :
    build_blocks segs k =
      (List.range (nbins segs k).toNat).filterMap (emitBin segs k) := by
  cases segs with
  | nil =>
    have h : nbins ([] : List Segment) k = 0 := by
      simp [nbins, ceilSubDivQ, tEnd, binAnchor]
    rw [h]
    rfl
  | cons s0 rest =>
    show buildLoop k (binAnchor (s0 :: rest) k) (s0 :: rest) 0
        (nbins (s0 :: rest) k).toNat = _
    rw [buildLoop_eq_filterMap]
    have hfun : (fun j => emitAt k (binAnchor (s0 :: rest) k)
        (activeFrom k (binAnchor (s0 :: rest) k) (s0 :: rest) 0 j) (0 + j)) =
        emitBin (s0 :: rest) k := by
      funext j
      rw [Nat.zero_add]
      rfl
    rw [hfun]

/-! ## Facts about the cursor states -/

/-- The cursor state of bin 0 is the skip of the whole segment list. -/
theorem activeSegs_zero (segs : List Segment) (k : ℤ) :
    activeSegs segs k 0 =
      segs.dropWhile
        (fun s => decide (s.end_ ≤ ((binStart (binAnchor segs k) k 0 : ℤ) : ℚ))) := rfl

/-- The cursor state of bin `i + 1` is the skip of the cursor state of bin
`i`. -/
theorem activeSegs_succ (segs : List Segment) (k : ℤ) (i : ℕ) :
    activeSegs segs k (i + 1) =
      (activeSegs segs k i).dropWhile
        (fun s => decide (s.end_ ≤ ((binStart (binAnchor segs k) k (i + 1) : ℤ) : ℚ))) := by
  show skipForBin k (binAnchor segs k) (0 + i + 1) (activeSegs segs k i) = _
  rw [Nat.zero_add]
  rfl

/-- Cursor states are sublists of the input. -/
theorem activeSegs_sublist (segs : List Segment) (k : ℤ) (i : ℕ) :
    (activeSegs segs k i).Sublist segs := by
  induction i with
  | zero => rw [activeSegs_zero]; exact List.dropWhile_sublist _
  | succ i ih => rw [activeSegs_succ]; exact (List.dropWhile_sublist _).trans ih

/-- A segment whose end lies strictly beyond bin `i`'s start is still in
bin `i`'s cursor state (for a nonnegative interval). -/
theorem mem_activeSegs {segs : List Segment} {k : ℤ} (hk : 0 ≤ k) {s : Segment}
    (hs : s ∈ segs) (i : ℕ)
    (hlt : ((binStart (binAnchor segs k) k i : ℤ) : ℚ) < s.end_) :
    s ∈ activeSegs segs k i := by
  induction i with
  | zero =>
    rw [activeSegs_zero]
    refine mem_dropWhile_of_mem hs ?_
    simp only [decide_eq_true_eq]
    exact not_le.mpr hlt
  | succ i ih =>
    have hmono : ((binStart (binAnchor segs k) k i : ℤ) : ℚ) ≤
        ((binStart (binAnchor segs k) k (i + 1) : ℤ) : ℚ) := by
      unfold binStart
      push_cast
      have h1 : ((i : ℚ)) * (k : ℚ) ≤ ((i : ℚ) + 1) * (k : ℚ) := by
        apply mul_le_mul_of_nonneg_right _ (by exact_mod_cast hk)
        linarith
      linarith
    have hsprev := ih (lt_of_le_of_lt hmono hlt)
    rw [activeSegs_succ]
    refine mem_dropWhile_of_mem hsprev ?_
    simp only [decide_eq_true_eq]
    exact not_le.mpr hlt

/-- The time fields of an emitted block. -/
theorem emitAt_start_end {k bin0 : ℤ} {act : List Segment} {i : ℕ} {b : Block}
    (h : emitAt k bin0 act i = some b) :
    b.start = ((binStart bin0 k i : ℤ) : ℚ) ∧
    b.end_ = ((binStart bin0 k i + k : ℤ) : ℚ) := by
  simp only [emitAt] at h
  split_ifs at h
  cases h
  exact ⟨rfl, rfl⟩

/-! ## The terminal-punctuation search, declaratively -/

/-- Whitespace characters are not terminal punctuation. -/
theorem isTermPunct_eq_false_of_isPySpace {c : Char} (h : isPySpace c = true) :
    isTermPunct c = false := by
  have hc : c = ' ' ∨ c = '\t' ∨ c = '\n' ∨ c = '\r' ∨ c = '\x0b' ∨ c = '\x0c' := by
    simpa [isPySpace, or_assoc] using h
  rcases hc with rfl | rfl | rfl | rfl | rfl | rfl <;> rfl

/-- Evaluation of `searchTermPunct` on a snoc. -/
theorem searchTermPunct_snoc (ys : List Char) (c : Char) :
    searchTermPunct (ys ++ [c]) =
      (isTermPunct c || (isPySpace c && searchTermPunct ys)) := by
  induction ys with
  | nil =>
    show ((isTermPunct c && List.all [] isPySpace) || searchTermPunct []) = _
    cases hc1 : isTermPunct c <;> cases hc2 : isPySpace c <;> rfl
  | cons y ys ih =>
    show ((isTermPunct y && List.all (ys ++ [c]) isPySpace) || searchTermPunct (ys ++ [c])) =
      (isTermPunct c ||
        (isPySpace c && ((isTermPunct y && List.all ys isPySpace) || searchTermPunct ys)))
    rw [ih, List.all_append]
    simp only [List.all_cons, List.all_nil, Bool.and_true]
    cases isTermPunct c <;> cases isPySpace c <;> cases isTermPunct y <;>
      cases List.all ys isPySpace <;> cases searchTermPunct ys <;> rfl

/-- Evaluation of `endsWithTerminal` on a snoc. -/
theorem endsWithTerminal_snoc (ys : List Char) (c : Char) :
    endsWithTerminal (ys ++ [c]) =
      (isTermPunct c || (isPySpace c && endsWithTerminal ys)) := by
  simp only [endsWithTerminal, List.reverse_append, List.reverse_cons, List.reverse_nil,
    List.nil_append, List.singleton_append, List.dropWhile_cons]
  by_cases hc : isPySpace c = true
  · rw [if_pos hc, isTermPunct_eq_false_of_isPySpace hc, hc]
    simp only [Bool.false_or, Bool.true_and]
  · have hc' : isPySpace c = false := by revert hc; cases isPySpace c <;> simp
    rw [if_neg hc, hc']
    simp

/-- The code's positional `re.search(r"[.!?]\s*$", t)` agrees with the
spec's "ends in terminal punctuation optionally followed by whitespace". -/
theorem searchTermPunct_eq_endsWithTerminal (t : List Char) :
    searchTermPunct t = endsWithTerminal t := by
  induction t using List.reverseRecOn with
  | nil => rfl
  | append_singleton ys c ih => rw [searchTermPunct_snoc, endsWithTerminal_snoc, ih]

/-! ## Claim C1: the spec's end-to-end scenario -/

/-- C1 counterexample: on the fixture `exSegs` with interval 30 the code
computes `nbins = ceil((33 - 0) / 30) = 2`, and the second segment (end 33)
survives the skip loop of bin `[30, 60)` and satisfies `start < 60`, so
`build_blocks` emits two buckets — not exactly one as the claim states. -/
theorem c1_counterexample :
    (build_blocks exSegs 30).length = 2 ∧ (build_blocks exSegs 30).length ≠ 1 :=
  ⟨by decide, by decide⟩

/-- C1 (amended): the pipeline computes anchor 0 and produces two buckets:
`[0, 30)` with cleaned text "so today we talk about caches" (no appended
terminal period — the cleaned string is under the 40-character threshold),
and `[30, 60)` with cleaned text "we talk about caches". -/
theorem c1_scenario :
    build_blocks exSegs 30 =
      [⟨0, 30, "so today we talk about caches".toList⟩,
       ⟨30, 60, "we talk about caches".toList⟩] ∧
    binAnchor exSegs 30 = 0 ∧
    (light_cleanup "um so today we we talk about caches".toList).length ≤ 40 :=
  ⟨by decide, by decide, by decide⟩

/-! ## Claim C2: idempotence of the normalizer -/

/-- C2 counterexample: `light_cleanup` is not idempotent.  The filler
removal is a single left-to-right pass, and the replacement consumes the
delimiter between two adjacent fillers, so "um um" loses only its first
"um"; the second application then removes the second one. -/
theorem c2_counterexample :
    light_cleanup (light_cleanup "um um".toList) ≠ light_cleanup "um um".toList ∧
    light_cleanup "um um".toList = "um".toList ∧
    light_cleanup "um".toList = [] :=
  ⟨by decide, by decide, by decide⟩

/-- C2 (amended): `light_cleanup` is not idempotent for all strings (see
the counterexample "um um"); applying it twice does agree with applying it
once on the spec's end-to-end fixture and on representative inputs for each
cleanup rule. -/
theorem c2_idempotent_on_fixtures :
    ∀ t ∈ idempotenceFixtures, light_cleanup (light_cleanup t) = light_cleanup t := by
  decide

/-- Witness for `c2_idempotent_on_fixtures` at the spec's fixture string. -/
theorem c2_idempotent_on_fixtures_witness :
    light_cleanup (light_cleanup "um so today we we talk about caches".toList) =
      light_cleanup "um so today we we talk about caches".toList :=
  c2_idempotent_on_fixtures "um so today we we talk about caches".toList (by decide)

/-! ## Claim C3: what filler removal does with the two delimiters -/

/-- C3 counterexample: the substitution replaces the filler and its two
delimiters by BOTH delimiters (`\1\3`), not by a single shared one.  On
"so, um; yes" the removal step leaves "so, ; yes", and after the later
whitespace and punctuation rules the mixed pair ",;" still survives in the
final output: neither single-delimiter result predicted by the claim
occurs. -/
theorem c3_counterexample :
    removeFillers "so, um; yes".toList = "so, ; yes".toList ∧
    light_cleanup "so, um; yes".toList = "so,; yes".toList ∧
    light_cleanup "so, um; yes".toList ≠ "so, yes".toList ∧
    light_cleanup "so, um; yes".toList ≠ "so; yes".toList :=
  ⟨by decide, by decide, by decide, by decide⟩

/-- C3 (amended): for every pair of delimiters, the removal step replaces
`delimiter-filler-delimiter` by the concatenation of the two delimiters
(replacement `\1\3`); doubled identical delimiters are only cleaned up by
the later whitespace/punctuation rules, and mixed pairs survive. -/
theorem c3_replacement_keeps_both (d1 : Char) (hd1 : d1 ∈ delimChars)
    (d2 : Char) (hd2 : d2 ∈ delimChars) :
    removeFillers ("so".toList ++ d1 :: "um".toList ++ d2 :: " yes".toList) =
      "so".toList ++ d1 :: d2 :: " yes".toList := by
  simp only [delimChars, List.mem_cons, List.not_mem_nil, or_false] at hd1 hd2
  rcases hd1 with rfl | rfl | rfl | rfl <;> rcases hd2 with rfl | rfl | rfl | rfl <;> decide

/-- Witness for `c3_replacement_keeps_both` at the mixed pair comma,
semicolon. -/
theorem c3_replacement_keeps_both_witness :
    removeFillers ("so".toList ++ ',' :: "um".toList ++ ';' :: " yes".toList) =
      "so".toList ++ ',' :: ';' :: " yes".toList :=
  c3_replacement_keeps_both ',' (by decide) ';' (by decide)

/-! ## Claim C9: empty input -/

/-- C9: for any positive interval, `build_blocks` on an empty segment list
returns the empty bucket list (and, being a total function, raises no
error); `main` then surfaces the empty result as the terminal "empty
result" outcome rather than a crash. -/
theorem c9_empty_input (k : ℤ) (hk : 0 < k) :
    build_blocks [] k = [] ∧ runAfterBuild [] k = RunOutcome.emptyResult :=
  ⟨rfl, rfl⟩

/-- Witness for `c9_empty_input` at interval 30. -/
theorem c9_empty_input_witness :
    build_blocks [] 30 = [] ∧ runAfterBuild [] 30 = RunOutcome.emptyResult :=
  c9_empty_input 30 (by decide)

/-! ## Claim C10: all segments ending at or before the anchor -/

/-- C10: for a non-empty segment list whose maximum end is at or below the
anchor, the computed bin count `ceil((t_end - anchor) / interval)` is zero
or negative, so `build_blocks` returns an empty list even though segments
may carry non-empty text. -/
theorem c10_degenerate_bins (segs : List Segment) (k : ℤ) (hk : 0 < k)
    (hne : segs ≠ []) (hend : tEnd segs ≤ ((binAnchor segs k : ℤ) : ℚ)) :
    nbins segs k ≤ 0 ∧ build_blocks segs k = [] := by
  have hkQ : (0 : ℚ) < (k : ℚ) := by exact_mod_cast hk
  have h1 : nbins segs k ≤ 0 := by
    rw [nbins, ceilSubDivQ_eq _ _ _ hk]
    have h2 : (tEnd segs - ((binAnchor segs k : ℤ) : ℚ)) / (k : ℚ) ≤ 0 := by
      rw [div_le_iff hkQ]
      linarith
    have h3 : ⌈(tEnd segs - ((binAnchor segs k : ℤ) : ℚ)) / (k : ℚ)⌉ ≤ (0 : ℤ) :=
      Int.ceil_le.mpr (by push_cast; exact h2)
    exact h3
  refine ⟨h1, ?_⟩
  cases segs with
  | nil => rfl
  | cons s0 rest =>
    show buildLoop k (binAnchor (s0 :: rest) k) (s0 :: rest) 0
        (nbins (s0 :: rest) k).toNat = []
    rw [Int.toNat_of_nonpos h1]
    rfl

/-- Witness for `c10_degenerate_bins` on a loaded segment with defaulted
end `0.0` and start 35. -/
theorem c10_degenerate_bins_witness :
    nbins defaultedEndSegs 30 ≤ 0 ∧ build_blocks defaultedEndSegs 30 = [] :=
  c10_degenerate_bins defaultedEndSegs 30 (by decide) (by decide) (by decide)

/-! ## Claim C5: text loss -/

/-- C5 counterexample: for the degenerate (but loadable) segment list with
start 35 and defaulted end 0, `build_blocks` emits no bucket at all, so the
non-whitespace characters of "hello" appear in no bucket even though no
cleanup rule removed them. -/
theorem c5_counterexample :
    build_blocks defaultedEndSegs 30 = [] ∧ ∀ s ∈ defaultedEndSegs, s.text ≠ [] :=
  ⟨by decide, by decide⟩

/-! ## Claim C4: the forward-only, non-rewinding scan -/

/-- C4: the bucketizer's scan is forward-only.  For every segment list,
interval and bin index: (1) the cursor state of bin `i + 1` is a suffix of
that of bin `i` (the cursor never rewinds, so a segment passed over is
never revisited for later bins); (2) and (3) a segment dropped by the skip
loop — initially or between bins — satisfies `end <= binStart` of the bin
being processed; (4) for start-sorted input, a segment is included in bin
`i` exactly when it is at or after the cursor and its `start` is less than
the bin's end, with no other check against the bin's start; (5) on the
spec's fixture, the segment `[5, 33)` is included in both bin 0 and bin 1,
so one segment's text can contribute to multiple consecutive bins. -/
theorem c4_forward_scan (segs : List Segment) (k : ℤ) (i : ℕ)
    (hsort : List.Pairwise (fun a b : Segment => a.start ≤ b.start) segs) :
    (activeSegs segs k (i + 1)) <:+ (activeSegs segs k i) ∧
    (∀ s ∈ segs, s ∉ activeSegs segs k 0 →
      s.end_ ≤ ((binStart (binAnchor segs k) k 0 : ℤ) : ℚ)) ∧
    (∀ s ∈ activeSegs segs k i, s ∉ activeSegs segs k (i + 1) →
      s.end_ ≤ ((binStart (binAnchor segs k) k (i + 1) : ℤ) : ℚ)) ∧
    (∀ s : Segment, s ∈ binIncluded segs k i ↔
      s ∈ activeSegs segs k i ∧
        s.start < ((binStart (binAnchor segs k) k i + k : ℤ) : ℚ)) ∧
    ((⟨5, 33, "we we talk about caches".toList⟩ : Segment) ∈ binIncluded exSegs 30 0 ∧
     (⟨5, 33, "we we talk about caches".toList⟩ : Segment) ∈ binIncluded exSegs 30 1) := by
  refine ⟨?_, ?_, ?_, ?_, by decide, by decide⟩
  · rw [activeSegs_succ]
    exact List.dropWhile_suffix _
  · intro s hs hnot
    rw [activeSegs_zero] at hnot
    have := pred_of_not_mem_dropWhile hs hnot
    simpa using this
  · intro s hs hnot
    rw [activeSegs_succ] at hnot
    have := pred_of_not_mem_dropWhile hs hnot
    simpa using this
  · intro s
    constructor
    · intro hmem
      refine ⟨(List.takeWhile_sublist _).mem hmem, ?_⟩
      have := List.mem_takeWhile_imp hmem
      simpa using this
    · rintro ⟨hact, hlt⟩
      exact mem_takeWhile_start_lt (hsort.sublist (activeSegs_sublist segs k i)) hact hlt

/-- Witness for `c4_forward_scan` at the spec's fixture, interval 30,
bin 0 (first conjunct). -/
theorem c4_forward_scan_witness :
    (activeSegs exSegs 30 1) <:+ (activeSegs exSegs 30 0) :=
  (c4_forward_scan exSegs 30 0 (by decide)).1

/-! ## Claim C6: bucket structure invariant -/

/-- The time fields of the block emitted for bin `i`, if any. -/
theorem emitBin_start_end {segs : List Segment} {k : ℤ} {i : ℕ} {b : Block}
    (h : emitBin segs k i = some b) :
    b.start = ((binStart (binAnchor segs k) k i : ℤ) : ℚ) ∧
    b.end_ = ((binStart (binAnchor segs k) k i + k : ℤ) : ℚ) :=
  emitAt_start_end h

/-- C6: for a non-empty segment list and positive interval, every emitted
bucket's start is `anchor + i * k` for some bin index `i` with
`(i : ℤ) < nbins` (so every bucket start is congruent to the anchor modulo
`k`), its end is `start + k`, and the emitted buckets are in strictly
ascending start order (distinct bin indices; gaps only where empty bins
were filtered out). -/
theorem c6_bucket_structure (segs : List Segment) (k : ℤ) (hne : segs ≠ [])
    (hk : 0 < k) :
    (∀ b ∈ build_blocks segs k, ∃ i : ℕ, (i : ℤ) < nbins segs k ∧
      b.start = ((binAnchor segs k : ℤ) : ℚ) + (i : ℚ) * (k : ℚ) ∧
      b.end_ = b.start + (k : ℚ)) ∧
    List.Pairwise (fun a b : Block => a.start < b.start) (build_blocks segs k) := by
  have hkQ : (0 : ℚ) < (k : ℚ) := by exact_mod_cast hk
  constructor
  · intro b hb
    rw [build_blocks_eq_emitBin] at hb
    obtain ⟨i, hir, hei⟩ := List.mem_filterMap.mp hb
    obtain ⟨h1, h2⟩ := emitBin_start_end hei
    refine ⟨i, Int.lt_toNat.mp (List.mem_range.mp hir), ?_, ?_⟩
    · rw [h1]
      unfold binStart
      push_cast
      ring
    · rw [h1, h2]
      push_cast
      ring
  · rw [build_blocks_eq_emitBin]
    rw [List.pairwise_filterMap]
    have hbase := List.pairwise_lt_range (nbins segs k).toNat
    refine hbase.imp ?_
    intro i j hij b hb b' hb'
    obtain ⟨hs1, _⟩ := emitBin_start_end hb
    obtain ⟨hs2, _⟩ := emitBin_start_end hb'
    rw [hs1, hs2]
    unfold binStart
    push_cast
    have : (i : ℚ) * (k : ℚ) < (j : ℚ) * (k : ℚ) := by
      apply mul_lt_mul_of_pos_right _ hkQ
      exact_mod_cast hij
    linarith

/-- Witness for `c6_bucket_structure` at the spec's fixture, interval 30
(second conjunct). -/
theorem c6_bucket_structure_witness :
    List.Pairwise (fun a b : Block => a.start < b.start) (build_blocks exSegs 30) :=
  (c6_bucket_structure exSegs 30 (by decide) (by decide)).2

/-- C5 (amended): the claim fails as stated (see the counterexample); the
statement that holds is: buckets are exactly the conceptual bins whose
cleaned text is nonempty (first conjunct), and for start-sorted segments
with `start < end`, the full text of every segment with nonempty text
appears verbatim — as a contiguous substring — in the raw concatenated text
of some conceptual bin, so characters can then only be removed by the
documented cleanup chain `light_cleanup` applied to that raw text. -/
theorem c5_no_text_loss (segs : List Segment) (k : ℤ) (hk : 0 < k)
    (hsort : List.Pairwise (fun a b : Segment => a.start ≤ b.start) segs)
    (hdur : ∀ s ∈ segs, s.start < s.end_) :
    build_blocks segs k = (List.range (nbins segs k).toNat).filterMap (emitBin segs k) ∧
    ∀ s ∈ segs, s.text ≠ [] →
      ∃ i : ℕ, (i : ℤ) < nbins segs k ∧ s.text <:+: binRaw segs k i := by
  refine ⟨build_blocks_eq_emitBin segs k, ?_⟩
  intro s hs hst
  have hkQ : (0 : ℚ) < (k : ℚ) := by exact_mod_cast hk
  obtain ⟨s0, rest, rfl⟩ : ∃ s0 rest, segs = s0 :: rest := by
    cases segs with
    | nil => cases hs
    | cons a l => exact ⟨a, l, rfl⟩
  have h0 : s0.start ≤ s.start := by
    rcases List.mem_cons.mp hs with rfl | hmem
    · exact le_refl _
    · exact (List.pairwise_cons.mp hsort).1 s hmem
  have hanchor : ((binAnchor (s0 :: rest) k : ℤ) : ℚ) ≤ s0.start := by
    have he : binAnchor (s0 :: rest) k = floorDivQ s0.start k * k := rfl
    rw [he, floorDivQ_eq _ _ hk]
    push_cast
    have h1 : (⌊s0.start / (k : ℚ)⌋ : ℚ) ≤ s0.start / (k : ℚ) := Int.floor_le _
    calc (⌊s0.start / (k : ℚ)⌋ : ℚ) * (k : ℚ) ≤ s0.start / (k : ℚ) * (k : ℚ) :=
          mul_le_mul_of_nonneg_right h1 hkQ.le
      _ = s0.start := div_mul_cancel₀ _ (ne_of_gt hkQ)
  have hq0 : 0 ≤ ⌊(s.start - ((binAnchor (s0 :: rest) k : ℤ) : ℚ)) / (k : ℚ)⌋ :=
    Int.floor_nonneg.mpr (div_nonneg (by linarith) hkQ.le)
  have hfl : ((⌊(s.start - ((binAnchor (s0 :: rest) k : ℤ) : ℚ)) / (k : ℚ)⌋ : ℤ) : ℚ) ≤
      (s.start - ((binAnchor (s0 :: rest) k : ℤ) : ℚ)) / (k : ℚ) := Int.floor_le _
  have hfl2 : (s.start - ((binAnchor (s0 :: rest) k : ℤ) : ℚ)) / (k : ℚ) <
      ((⌊(s.start - ((binAnchor (s0 :: rest) k : ℤ) : ℚ)) / (k : ℚ)⌋ : ℤ) : ℚ) + 1 :=
    Int.lt_floor_add_one _
  rw [le_div_iff₀ hkQ] at hfl
  rw [div_lt_iff₀ hkQ] at hfl2
  have hend : s.end_ ≤ tEnd (s0 :: rest) := end_le_tEnd hs
  have hnb : (tEnd (s0 :: rest) - ((binAnchor (s0 :: rest) k : ℤ) : ℚ)) / (k : ℚ) ≤
      ((nbins (s0 :: rest) k : ℤ) : ℚ) := by
    rw [nbins, ceilSubDivQ_eq _ _ _ hk]
    exact_mod_cast Int.le_ceil _
  rw [div_le_iff₀ hkQ] at hnb
  have hq_lt : ⌊(s.start - ((binAnchor (s0 :: rest) k : ℤ) : ℚ)) / (k : ℚ)⌋ <
      nbins (s0 :: rest) k := by
    have hlt : ((⌊(s.start - ((binAnchor (s0 :: rest) k : ℤ) : ℚ)) / (k : ℚ)⌋ : ℤ) : ℚ) *
        (k : ℚ) < ((nbins (s0 :: rest) k : ℤ) : ℚ) * (k : ℚ) := by
      have h2 : s.start < tEnd (s0 :: rest) := lt_of_lt_of_le (hdur s hs) hend
      linarith
    exact_mod_cast (mul_lt_mul_right hkQ).mp hlt
  refine ⟨(⌊(s.start - ((binAnchor (s0 :: rest) k : ℤ) : ℚ)) / (k : ℚ)⌋).toNat, ?_, ?_⟩
  · rw [Int.toNat_of_nonneg hq0]
    exact hq_lt
  · have hiq : (((⌊(s.start - ((binAnchor (s0 :: rest) k : ℤ) : ℚ)) / (k : ℚ)⌋).toNat : ℕ) :
        ℚ) = ((⌊(s.start - ((binAnchor (s0 :: rest) k : ℤ) : ℚ)) / (k : ℚ)⌋ : ℤ) : ℚ) := by
      exact_mod_cast congrArg (fun z : ℤ => (z : ℚ)) (Int.toNat_of_nonneg hq0)
    have hbsi : ((binStart (binAnchor (s0 :: rest) k) k
        (⌊(s.start - ((binAnchor (s0 :: rest) k : ℤ) : ℚ)) / (k : ℚ)⌋).toNat : ℤ) : ℚ) =
        ((binAnchor (s0 :: rest) k : ℤ) : ℚ) +
          ((⌊(s.start - ((binAnchor (s0 :: rest) k : ℤ) : ℚ)) / (k : ℚ)⌋ : ℤ) : ℚ) *
            (k : ℚ) := by
      unfold binStart
      push_cast
      rw [hiq]
    have hact : s ∈ activeSegs (s0 :: rest) k
        (⌊(s.start - ((binAnchor (s0 :: rest) k : ℤ) : ℚ)) / (k : ℚ)⌋).toNat := by
      apply mem_activeSegs hk.le hs
      rw [hbsi]
      have := hdur s hs
      linarith
    have hincl : s ∈ binIncluded (s0 :: rest) k
        (⌊(s.start - ((binAnchor (s0 :: rest) k : ℤ) : ℚ)) / (k : ℚ)⌋).toNat := by
      apply mem_takeWhile_start_lt (hsort.sublist (activeSegs_sublist _ _ _)) hact
      have hcast : ((binStart (binAnchor (s0 :: rest) k) k
          (⌊(s.start - ((binAnchor (s0 :: rest) k : ℤ) : ℚ)) / (k : ℚ)⌋).toNat + k : ℤ) :
            ℚ) =
          ((binStart (binAnchor (s0 :: rest) k) k
            (⌊(s.start - ((binAnchor (s0 :: rest) k : ℤ) : ℚ)) / (k : ℚ)⌋).toNat : ℤ) : ℚ) +
            (k : ℚ) := by
        push_cast
        ring
      rw [hcast, hbsi]
      linarith
    have htext : s.text ∈ binTexts (s0 :: rest) k
        (⌊(s.start - ((binAnchor (s0 :: rest) k : ℤ) : ℚ)) / (k : ℚ)⌋).toNat := by
      unfold binTexts
      refine List.mem_filterMap.mpr ⟨s, hincl, ?_⟩
      have hni : s.text.isEmpty = false := by
        cases hstl : s.text with
        | nil => exact absurd hstl hst
        | cons a l => rfl
      rw [hni]
      rfl
    exact infix_joinSep _ htext

/-- Witness for `c5_no_text_loss` at the spec's fixture (first conjunct). -/
theorem c5_no_text_loss_witness :
    build_blocks exSegs 30 =
      (List.range (nbins exSegs 30).toNat).filterMap (emitBin exSegs 30) :=
  (c5_no_text_loss exSegs 30 (by decide) (by decide) (by decide)).1

/-! ## Claim C7: the terminal-period rule -/

/-- C7: the normalizer appends a single terminal period exactly when, after
all earlier rules, the string is non-empty, does not already end in `.`,
`!` or `?` optionally followed by whitespace, and its length exceeds 40
characters; otherwise (in particular for length at most 40) the string is
returned unchanged.  The second conjunct records that appending the period
really changes the string, so the branch condition is equivalent to "a
period was appended". -/
theorem c7_terminal_period (x : List Char) :
    light_cleanup x =
      (if (!(cleanupBeforePeriod x).isEmpty && !endsWithTerminal (cleanupBeforePeriod x)
            && decide (40 < (cleanupBeforePeriod x).length))
       then cleanupBeforePeriod x ++ ['.'] else cleanupBeforePeriod x) ∧
    cleanupBeforePeriod x ++ ['.'] ≠ cleanupBeforePeriod x := by
  constructor
  · show (if (!(cleanupBeforePeriod x).isEmpty && !searchTermPunct (cleanupBeforePeriod x)
          && decide (40 < (cleanupBeforePeriod x).length))
        then cleanupBeforePeriod x ++ ['.'] else cleanupBeforePeriod x) = _
    rw [searchTermPunct_eq_endsWithTerminal]
  · intro h
    have hlen := congrArg List.length h
    simp at hlen

/-! ## Claim C8: timestamp formatting -/

/-- C8: for nonnegative input, `fmt_time` rounds to a whole number of
seconds at distance at most 1/2 (`int(seconds + 0.5)`, round-half-up) and
formats it as zero-padded `MM:SS` when the hour component is zero and
`HH:MM:SS` otherwise; in particular 65 s gives "01:05", 3661 s gives
"01:01:01" and 59.6 s gives "01:00". -/
theorem c8_fmt_time (q : ℚ) (hq : 0 ≤ q) :
    (∃ n : ℕ, |q - (n : ℚ)| ≤ 1 / 2 ∧ fmt_time q = clockFormat n) ∧
    fmt_time 65 = "01:05" ∧ fmt_time 3661 = "01:01:01" ∧
    fmt_time 59.6 = "01:00" := by
  refine ⟨?_, by decide, by decide, ?_⟩
  · have hs0 : (0 : ℤ) ≤ ⌊q + 1 / 2⌋ := Int.floor_nonneg.mpr (by linarith)
    have hNZ : (((⌊q + 1 / 2⌋).toNat : ℕ) : ℤ) = ⌊q + 1 / 2⌋ := Int.toNat_of_nonneg hs0
    refine ⟨(⌊q + 1 / 2⌋).toNat, ?_, ?_⟩
    · have h1 : ((⌊q + 1 / 2⌋ : ℤ) : ℚ) ≤ q + 1 / 2 := Int.floor_le _
      have h2 : q + 1 / 2 < ((⌊q + 1 / 2⌋ : ℤ) : ℚ) + 1 := Int.lt_floor_add_one _
      have h3 : (((⌊q + 1 / 2⌋).toNat : ℕ) : ℚ) = ((⌊q + 1 / 2⌋ : ℤ) : ℚ) := by
        exact_mod_cast hNZ
      rw [h3, abs_le]
      constructor <;> linarith
    · have hsv : Int.tdiv (2 * q.num + (q.den : ℤ)) (2 * (q.den : ℤ)) =
          (((⌊q + 1 / 2⌋).toNat : ℕ) : ℤ) := by
        rw [fmt_time_round_eq q hq, hNZ]
      simp only [fmt_time]
      rw [hsv]
      have hfd : Int.fdiv (((⌊q + 1 / 2⌋).toNat : ℕ) : ℤ) 3600 =
          (((⌊q + 1 / 2⌋).toNat / 3600 : ℕ) : ℤ) := by
        rw [Int.fdiv_eq_ediv _ (by norm_num)]
        norm_cast
      have hfm3600 : Int.fmod (((⌊q + 1 / 2⌋).toNat : ℕ) : ℤ) 3600 =
          (((⌊q + 1 / 2⌋).toNat % 3600 : ℕ) : ℤ) := by
        rw [Int.fmod_eq_emod _ (by norm_num)]
        norm_cast
      have hfm60 : Int.fmod (((⌊q + 1 / 2⌋).toNat : ℕ) : ℤ) 60 =
          (((⌊q + 1 / 2⌋).toNat % 60 : ℕ) : ℤ) := by
        rw [Int.fmod_eq_emod _ (by norm_num)]
        norm_cast
      rw [hfd, hfm3600, hfm60]
      have hfd60 : Int.fdiv (((⌊q + 1 / 2⌋).toNat % 3600 : ℕ) : ℤ) 60 =
          (((⌊q + 1 / 2⌋).toNat % 3600 / 60 : ℕ) : ℤ) := by
        rw [Int.fdiv_eq_ediv _ (by norm_num)]
        norm_cast
      rw [hfd60]
      have hgen1 : ∀ M : ℕ, M / 3600 = 0 → M % 3600 = M := by
        intro M hM
        omega
      have hgen2 : ∀ M : ℕ, M % 3600 / 60 = M / 60 % 60 := by
        intro M
        omega
      by_cases hh : (⌊q + 1 / 2⌋).toNat / 3600 = 0
      · rw [if_neg (by rw [hh]; norm_num), clockFormat, if_pos hh, hgen1 _ hh]
      · rw [if_pos (by exact_mod_cast Nat.pos_of_ne_zero hh), clockFormat, if_neg hh,
          hgen2]
  · have h596 : (59.6 : ℚ) = Rat.mk' 298 5 (by decide) (by decide) := by
      rw [Rat.mk'_eq_divInt, Rat.divInt_eq_div]
      norm_num
    rw [h596]
    decide

/-- Witness for `c8_fmt_time` at 65 seconds. -/
theorem c8_fmt_time_witness : fmt_time 65 = "01:05" :=
  (c8_fmt_time 65 (by norm_num)).2.1
